import Mathlib

/-!
Verification of the schema-merging build script (`build.rs`): a JSON tree
model and shallow embeddings of its four pure components
(`schema_name_to_type_name`, `strip_if_then_else`, `rewrite_references`
with `fix_reference`, `extract_definitions`) together with the merge
driver, and proofs of the specified properties.
-/

/-- JSON values, as produced by the JSON parser.  Objects are modelled as
association lists with (by parser invariant) pairwise distinct keys. -/
inductive Json where
  | null : Json
  | bool (b : Bool) : Json
  | num (n : Int) : Json
  | str (s : String) : Json
  | arr (elems : List Json) : Json
  | obj (members : List (String × Json)) : Json

/-- Map membership test for association-list objects (`Map::contains_key`). -/
def containsKey (kvs : List (String × Json)) (key : String) : Bool :=
  kvs.any (fun kv => kv.1 == key)

/-- `Map::remove`: take out the entry with the given key (if any), returning
the removed value and the remaining entries. -/
def removeKey : List (String × Json) → String → Option Json × List (String × Json)
  | [], _ => (none, [])
  | (k, v) :: rest, key =>
    if k == key then (some v, rest)
    else
      let r := removeKey rest key
      (r.1, (k, v) :: r.2)

/-- `Map::insert`: replace the value at the key if present, else append. -/
def mapInsert : List (String × Json) → String → Json → List (String × Json)
  | [], key, val => [(key, val)]
  | (k, v) :: rest, key, val =>
    if k == key then (k, val) :: rest
    else (k, v) :: mapInsert rest key val

/-- `Map::extend`: insert every entry of the second map into the first,
later entries overwriting earlier ones at equal keys. -/
def mapExtend (m : List (String × Json)) (entries : List (String × Json)) :
    List (String × Json) :=
  entries.foldl (fun acc kv => mapInsert acc kv.1 kv.2) m

/-- `is_if_then_else` from `strip_if_then_else`: the value is an object
having both an `if` key and a `then` key. -/
def is_if_then_else : Json → Bool
  | .obj o => containsKey o "if" && containsKey o "then"
  | _ => false

mutual

/-- `strip_if_then_else`: remove every object-child that has both an `if`
and a `then` key, recursively, from object members and array elements. -/
def strip_if_then_else : Json → Json
  | .obj map => .obj (stripEntries map)
  | .arr vec => .arr (stripElems vec)
  | v => v

/-- The object branch of `strip_if_then_else`: filter out members whose
value is an if/then object, then recurse into the remaining values. -/
def stripEntries : List (String × Json) → List (String × Json)
  | [] => []
  | (k, v) :: rest =>
    if is_if_then_else v then stripEntries rest
    else (k, strip_if_then_else v) :: stripEntries rest

/-- The array branch of `strip_if_then_else`: filter out elements that are
if/then objects, then recurse into the remaining elements. -/
def stripElems : List Json → List Json
  | [] => []
  | v :: rest =>
    if is_if_then_else v then stripElems rest
    else strip_if_then_else v :: stripElems rest

end

/-- `uppercase_first`: uppercase the first character of a string. -/
def uppercase_first (s : String) : String :=
  match s.toList with
  | [] => ""
  | c :: rest => String.mk (c.toUpper :: rest)

/-- `str::split` on a single separator character: yields the (possibly
empty) segments between occurrences of the separator. -/
def splitOnChar (sep : Char) : List Char → List (List Char)
  | [] => [[]]
  | c :: rest =>
    let r := splitOnChar sep rest
    if c == sep then [] :: r
    else
      match r with
      | [] => [[c]]
      | g :: gs => (c :: g) :: gs

/-- `schema_name_to_type_name`: split on `-`, uppercase each segment's
first character, concatenate, and append `Schema`. -/
def schema_name_to_type_name (s : String) : String :=
  String.join ((splitOnChar '-' s.toList).map
    (fun g => uppercase_first (String.mk g)) ++ ["Schema"])

/-- `fix_reference`: rewrite one `$ref` string.  `none` models the panic
on a bare reference that is not in the schema lookup table. -/
def fix_reference (reference name : String)
    (schema_lookup : List (String × String)) : Option String :=
  let cs := reference.toList
  if ("#/properties/").toList.isPrefixOf cs then
    some ("#/definitions/" ++ name ++ "/" ++ String.mk (cs.drop 2))
  else
    match cs.findIdx? (fun c => c == '#') with
    | some idx =>
      if 0 < idx then some (String.mk (cs.drop idx))
      else some reference
    | none =>
      match List.lookup reference schema_lookup with
      | some schema => some ("#/definitions/" ++ schema)
      | none => none

/-- The replacement for a `$ref` member value:
`fix_reference(v.as_str().unwrap(), name, schema_lookup).into()`.
`none` models both the non-string `unwrap` panic and the lookup panic. -/
def fixRefValue (name : String) (v : Json)
    (schema_lookup : List (String × String)) : Option Json :=
  match v with
  | .str s => (fix_reference s name schema_lookup).map Json.str
  | _ => none

mutual

/-- `rewrite_references`: rewrite every string under a `$ref` key via
`fix_reference`.  `none` models the two panics (unresolvable bare
reference, and a `$ref` value that is not a string). -/
def rewrite_references (name : String) (value : Json)
    (schema_lookup : List (String × String)) : Option Json :=
  match value with
  | .obj kvs => (rewriteEntries name kvs schema_lookup).map .obj
  | .arr xs => (rewriteElems name xs schema_lookup).map .arr
  | v => some v

/-- Object branch of `rewrite_references`. -/
def rewriteEntries (name : String) (kvs : List (String × Json))
    (schema_lookup : List (String × String)) :
    Option (List (String × Json)) :=
  match kvs with
  | [] => some []
  | (k, v) :: rest =>
    if k == "$ref" then
      match fixRefValue name v schema_lookup,
            rewriteEntries name rest schema_lookup with
      | some v', some rest' => some ((k, v') :: rest')
      | _, _ => none
    else
      match rewrite_references name v schema_lookup,
            rewriteEntries name rest schema_lookup with
      | some v', some rest' => some ((k, v') :: rest')
      | _, _ => none

/-- Array branch of `rewrite_references`. -/
def rewriteElems (name : String) (xs : List Json)
    (schema_lookup : List (String × String)) : Option (List Json) :=
  match xs with
  | [] => some []
  | v :: rest =>
    match rewrite_references name v schema_lookup,
          rewriteElems name rest schema_lookup with
    | some v', some rest' => some (v' :: rest')
    | _, _ => none

end

/-- `extract_definitions`: if the schema is an object with a `definitions`
key, remove that key; when the removed value is itself an object, merge its
entries into the accumulator (otherwise the value is discarded). -/
def extract_definitions (definitions : List (String × Json)) (schema : Json) :
    List (String × Json) × Json :=
  match schema with
  | .obj object =>
    match removeKey object "definitions" with
    | (some (.obj defs), object') => (mapExtend definitions defs, .obj object')
    | (some _, object') => (definitions, .obj object')
    | (none, object') => (definitions, .obj object')
  | v => (definitions, v)

/-- `str::strip_prefix`. -/
def stripPre (pre s : String) : Option String :=
  if pre.toList.isPrefixOf s.toList then
    some (String.mk (s.toList.drop pre.length))
  else none

/-- `str::strip_suffix`. -/
def stripSuf (suf s : String) : Option String :=
  if suf.toList.isSuffixOf s.toList then
    some (String.mk (s.toList.take (s.length - suf.length)))
  else none

/-- `str::strip_circumfix`: strip the given prefix, then the given suffix. -/
def strip_circumfix (pre suf s : String) : Option String :=
  (stripPre pre s).bind (stripSuf suf)

/-- The `schema_lookup` table of `main`: each filename matching
`m3-<base>.schema.json` is paired with its derived type name. -/
def buildLookup (filenames : List String) : List (String × String) :=
  filenames.filterMap (fun s =>
    (strip_circumfix "m3-" ".schema.json" s).map
      (fun name => (s, schema_name_to_type_name name)))

/-- The merge pipeline of `main` over in-memory files: build the lookup
table, then per file strip conditionals, rewrite references, and extract
definitions; finally extend the accumulated definitions with the processed
schemas under their derived names. -/
def mergeDriver (files : List (String × Json)) :
    Option (List (String × Json)) :=
  let schema_lookup := buildLookup (files.map Prod.fst)
  let processed := schema_lookup.foldl
    (fun acc fn =>
      acc.bind (fun st =>
        match List.lookup fn.1 files with
        | some content =>
          (rewrite_references fn.2 (strip_if_then_else content)
              schema_lookup).map
            (fun rewritten =>
              let p := extract_definitions st.1 rewritten
              (p.1, st.2 ++ [(fn.2, p.2)]))
        | none => none))
    (some (([] : List (String × Json)), ([] : List (String × Json))))
  processed.map (fun st => mapExtend st.1 st.2)

/-! ## Properties of the conditional stripper -/

mutual

/-- No node strictly below the root (object member values, array elements,
recursively) is an object with both an `if` and a `then` key. -/
def noIfThenBelow : Json → Bool
  | .obj kvs => noIfThenBelowEntries kvs
  | .arr xs => noIfThenBelowElems xs
  | _ => true

/-- `noIfThenBelow` for object member lists. -/
def noIfThenBelowEntries : List (String × Json) → Bool
  | [] => true
  | (_, v) :: rest =>
    !is_if_then_else v && noIfThenBelow v && noIfThenBelowEntries rest

/-- `noIfThenBelow` for array element lists. -/
def noIfThenBelowElems : List Json → Bool
  | [] => true
  | v :: rest => !is_if_then_else v && noIfThenBelow v && noIfThenBelowElems rest

end

/-- No node anywhere in the tree, the root included, is an object with
both an `if` and a `then` key. -/
def noIfThenAnywhere (t : Json) : Bool :=
  !is_if_then_else t && noIfThenBelow t

theorem containsKey_stripEntries (kvs : List (String × Json)) (key : String)
    (h : containsKey (stripEntries kvs) key = true) :
    containsKey kvs key = true := by
  induction kvs with
  | nil => simpa [stripEntries] using h
  | cons kv rest ih =>
    obtain ⟨k, v⟩ := kv
    by_cases hv : is_if_then_else v = true
    · rw [stripEntries, if_pos hv] at h
      have := ih h
      simp [containsKey] at this ⊢
      exact Or.inr this
    · rw [stripEntries, if_neg hv] at h
      simp [containsKey] at h ⊢
      rcases h with h | h
      · exact Or.inl h
      · exact Or.inr (by simpa [containsKey] using ih (by simpa [containsKey] using h))

/-- Stripping never creates an if/then object out of a node that was not
one: the stripped node's keys are among the original's. -/
theorem is_if_then_else_strip (v : Json)
    (h : is_if_then_else (strip_if_then_else v) = true) :
    is_if_then_else v = true := by
  cases v with
  | obj kvs =>
    rw [strip_if_then_else] at h
    rw [is_if_then_else] at h ⊢
    rw [Bool.and_eq_true] at h ⊢
    exact ⟨containsKey_stripEntries _ _ h.1, containsKey_stripEntries _ _ h.2⟩
  | arr xs => rw [strip_if_then_else] at h; exact (Bool.false_ne_true h).elim
  | null => exact h
  | bool b => exact h
  | num n => exact h
  | str s => exact h

theorem is_if_then_else_strip_false (v : Json)
    (h : is_if_then_else v = false) :
    is_if_then_else (strip_if_then_else v) = false := by
  cases hs : is_if_then_else (strip_if_then_else v)
  · rfl
  · rw [is_if_then_else_strip v hs] at h
    exact h

mutual

theorem noIfThenBelow_strip : ∀ t : Json,
    noIfThenBelow (strip_if_then_else t) = true
  | .obj kvs => by
    rw [strip_if_then_else, noIfThenBelow]
    exact noIfThenBelowEntries_strip kvs
  | .arr xs => by
    rw [strip_if_then_else, noIfThenBelow]
    exact noIfThenBelowElems_strip xs
  | .null => rfl
  | .bool _ => rfl
  | .num _ => rfl
  | .str _ => rfl

theorem noIfThenBelowEntries_strip : ∀ kvs : List (String × Json),
    noIfThenBelowEntries (stripEntries kvs) = true
  | [] => rfl
  | (k, v) :: rest => by
    by_cases hv : is_if_then_else v = true
    · rw [stripEntries, if_pos hv]
      exact noIfThenBelowEntries_strip rest
    · rw [stripEntries, if_neg hv, noIfThenBelowEntries]
      rw [is_if_then_else_strip_false v (by simpa using hv)]
      rw [noIfThenBelow_strip v, noIfThenBelowEntries_strip rest]
      rfl

theorem noIfThenBelowElems_strip : ∀ xs : List Json,
    noIfThenBelowElems (stripElems xs) = true
  | [] => rfl
  | v :: rest => by
    by_cases hv : is_if_then_else v = true
    · rw [stripElems, if_pos hv]
      exact noIfThenBelowElems_strip rest
    · rw [stripElems, if_neg hv, noIfThenBelowElems]
      rw [is_if_then_else_strip_false v (by simpa using hv)]
      rw [noIfThenBelow_strip v, noIfThenBelowElems_strip rest]
      rfl

end

mutual

theorem strip_strip : ∀ t : Json,
    strip_if_then_else (strip_if_then_else t) = strip_if_then_else t
  | .obj kvs => by
    rw [strip_if_then_else, strip_if_then_else, stripEntries_strip kvs]
  | .arr xs => by
    rw [strip_if_then_else, strip_if_then_else, stripElems_strip xs]
  | .null => rfl
  | .bool _ => rfl
  | .num _ => rfl
  | .str _ => rfl

theorem stripEntries_strip : ∀ kvs : List (String × Json),
    stripEntries (stripEntries kvs) = stripEntries kvs
  | [] => rfl
  | (k, v) :: rest => by
    by_cases hv : is_if_then_else v = true
    · rw [stripEntries, if_pos hv, stripEntries_strip rest]
    · rw [stripEntries, if_neg hv, stripEntries,
        if_neg (by rw [is_if_then_else_strip_false v (by simpa using hv)]; simp),
        strip_strip v, stripEntries_strip rest]

theorem stripElems_strip : ∀ xs : List Json,
    stripElems (stripElems xs) = stripElems xs
  | [] => rfl
  | v :: rest => by
    by_cases hv : is_if_then_else v = true
    · rw [stripElems, if_pos hv, stripElems_strip rest]
    · rw [stripElems, if_neg hv, stripElems,
        if_neg (by rw [is_if_then_else_strip_false v (by simpa using hv)]; simp),
        strip_strip v, stripElems_strip rest]

end

/-! ## Properties of the reference rewriter -/

theorem string_toList_append (a b : String) :
    (a ++ b).toList = a.toList ++ b.toList := rfl

/-- Rule 1 of `fix_reference`: a local `#/properties/...` pointer becomes
`#/definitions/<name>/` followed by the pointer without its leading `#/`. -/
theorem fix_reference_properties_rule (rest name : String)
    (tbl : List (String × String)) :
    fix_reference ("#/properties/" ++ rest) name tbl =
      some ("#/definitions/" ++ name ++ "/" ++ ("properties/" ++ rest)) := by
  have hpre : ("#/properties/").toList.isPrefixOf
      (("#/properties/" ++ rest).toList) = true := by
    rw [string_toList_append]
    simp
  rw [fix_reference]
  simp only [hpre, if_true]
  rw [string_toList_append]
  rfl

/-- Rule 2 of `fix_reference`: a `<file>#<fragment>` reference (nonempty
file part without `#`) is rewritten to `#<fragment>`. -/
theorem fix_reference_cross_rule (file frag name : String)
    (tbl : List (String × String)) (hne : file ≠ "")
    (hno : ∀ c ∈ file.toList, c ≠ '#') :
    fix_reference (file ++ "#" ++ frag) name tbl = some ("#" ++ frag) := by
  have hl : (file ++ "#" ++ frag).toList = file.toList ++ ('#' :: frag.toList) := by
    rw [string_toList_append, string_toList_append, List.append_assoc]
    rfl
  obtain ⟨c, cs, hfl⟩ : ∃ c cs, file.toList = c :: cs := by
    cases hfl : file.toList with
    | nil =>
      exact absurd (by cases file with | mk d => cases d with
        | nil => rfl
        | cons x xs => simp [String.toList] at hfl) hne
    | cons c cs => exact ⟨c, cs, rfl⟩
  have hc : c ≠ '#' := hno c (by rw [hfl]; exact List.mem_cons_self c cs)
  have hpre : ("#/properties/").toList.isPrefixOf
      ((file ++ "#" ++ frag).toList) = false := by
    rw [hl, hfl]
    show (('#' == c) && _) = false
    rw [beq_eq_false_iff_ne.mpr (Ne.symm hc)]
    rfl
  have hfind : ((file ++ "#" ++ frag).toList).findIdx? (fun x => x == '#') =
      some file.toList.length := by
    rw [hl, List.findIdx?_append]
    rw [List.findIdx?_eq_none_iff.mpr (fun x hx => beq_eq_false_iff_ne.mpr (hno x hx))]
    rw [List.findIdx?_cons]
    simp
  rw [fix_reference]
  simp only [hpre, Bool.false_eq_true, if_false, hfind]
  rw [if_pos (by rw [hfl]; exact Nat.succ_pos _)]
  rw [hl, List.drop_left]
  cases frag with
  | mk d => rfl

/-- Rule 3 of `fix_reference`: a reference with no `#` at all is looked up
in the schema table; a hit is rewritten to `#/definitions/<name>`, a miss
is the fatal error (`none`). -/
theorem fix_reference_bare_rule (reference name : String)
    (tbl : List (String × String)) (hno : ∀ c ∈ reference.toList, c ≠ '#') :
    fix_reference reference name tbl =
      (List.lookup reference tbl).map (fun n => "#/definitions/" ++ n) := by
  have hpre : ("#/properties/").toList.isPrefixOf reference.toList = false := by
    cases hfl : reference.toList with
    | nil => rfl
    | cons c cs =>
      have hc : c ≠ '#' := hno c (by rw [hfl]; exact List.mem_cons_self c cs)
      show (('#' == c) && _) = false
      rw [beq_eq_false_iff_ne.mpr (Ne.symm hc)]
      rfl
  have hfind : (reference.toList).findIdx? (fun x => x == '#') = none :=
    List.findIdx?_eq_none_iff.mpr (fun x hx => beq_eq_false_iff_ne.mpr (hno x hx))
  rw [fix_reference]
  simp only [hpre, Bool.false_eq_true, if_false, hfind]
  cases List.lookup reference tbl with
  | none => rfl
  | some n => rfl

/-- Rule 4 of `fix_reference`: a reference whose first character is `#`
and that does not start with `#/properties/` is left unchanged. -/
theorem fix_reference_unchanged_rule (reference name : String)
    (tbl : List (String × String)) (tail : List Char)
    (hhead : reference.toList = '#' :: tail)
    (hpre : ("#/properties/").toList.isPrefixOf reference.toList = false) :
    fix_reference reference name tbl = some reference := by
  have hfind : (reference.toList).findIdx? (fun x => x == '#') = some 0 := by
    rw [hhead, List.findIdx?_cons]
    simp
  rw [fix_reference]
  simp only [hpre, Bool.false_eq_true, if_false, hfind]
  rfl

/-- The value is a JSON string. -/
def Json.isStr : Json → Bool
  | .str _ => true
  | _ => false

mutual

/-- The two trees have identical shape, identical keys, and identical
content except possibly at string values stored under a `$ref` key. -/
def sameExceptRef : Json → Json → Bool
  | .obj kvs, .obj kvs' => sameExceptRefEntries kvs kvs'
  | .arr xs, .arr xs' => sameExceptRefElems xs xs'
  | .null, .null => true
  | .bool a, .bool b => a == b
  | .num a, .num b => a == b
  | .str a, .str b => a == b
  | _, _ => false

/-- `sameExceptRef` over object member lists: keys match pairwise; under
a `$ref` key both values are strings, elsewhere values agree recursively. -/
def sameExceptRefEntries : List (String × Json) → List (String × Json) → Bool
  | [], [] => true
  | (k, v) :: r, (k', v') :: r' =>
    k == k' &&
      (if k == "$ref" then v.isStr && v'.isStr else sameExceptRef v v') &&
      sameExceptRefEntries r r'
  | _, _ => false

/-- `sameExceptRef` over array element lists. -/
def sameExceptRefElems : List Json → List Json → Bool
  | [], [] => true
  | v :: r, v' :: r' => sameExceptRef v v' && sameExceptRefElems r r'
  | _, _ => false

end

mutual

theorem rewrite_references_same : ∀ (name : String) (t : Json)
    (tbl : List (String × String)) (t' : Json),
    rewrite_references name t tbl = some t' → sameExceptRef t t' = true
  | name, .obj kvs, tbl, t', h => by
    rw [rewrite_references] at h
    cases he : rewriteEntries name kvs tbl with
    | none => rw [he] at h; exact absurd h (by simp)
    | some kvs' =>
      rw [he] at h
      simp only [Option.map_some'] at h
      cases h
      rw [sameExceptRef]
      exact rewriteEntries_same name kvs tbl kvs' he
  | name, .arr xs, tbl, t', h => by
    rw [rewrite_references] at h
    cases he : rewriteElems name xs tbl with
    | none => rw [he] at h; exact absurd h (by simp)
    | some xs' =>
      rw [he] at h
      simp only [Option.map_some'] at h
      cases h
      rw [sameExceptRef]
      exact rewriteElems_same name xs tbl xs' he
  | name, .null, tbl, t', h => by
    cases Option.some.inj h
    rfl
  | name, .bool b, tbl, t', h => by
    cases Option.some.inj h
    exact beq_self_eq_true b
  | name, .num n, tbl, t', h => by
    cases Option.some.inj h
    exact beq_self_eq_true n
  | name, .str s, tbl, t', h => by
    cases Option.some.inj h
    exact beq_self_eq_true s

theorem rewriteEntries_same : ∀ (name : String) (kvs : List (String × Json))
    (tbl : List (String × String)) (kvs' : List (String × Json)),
    rewriteEntries name kvs tbl = some kvs' →
      sameExceptRefEntries kvs kvs' = true
  | name, [], tbl, kvs', h => by
    rw [rewriteEntries] at h
    cases h
    rfl
  | name, (k, v) :: rest, tbl, kvs', h => by
    rw [rewriteEntries] at h
    by_cases hk : (k == "$ref") = true
    · rw [if_pos hk] at h
      cases hf : fixRefValue name v tbl with
      | none => rw [hf] at h; exact absurd h (by simp)
      | some v' =>
        rw [hf] at h
        cases hr : rewriteEntries name rest tbl with
        | none => rw [hr] at h; exact absurd h (by simp)
        | some rest' =>
          rw [hr] at h
          cases h
          rw [sameExceptRefEntries]
          rw [if_pos hk]
          have hstr : (v.isStr && Json.isStr v') = true := by
            cases v with
            | str s =>
              rw [fixRefValue] at hf
              cases hfx : fix_reference s name tbl with
              | none => rw [hfx] at hf; exact absurd hf (by simp)
              | some s' =>
                rw [hfx] at hf
                simp only [Option.map_some'] at hf
                cases hf
                rfl
            | null => exact absurd hf (by simp [fixRefValue])
            | bool b => exact absurd hf (by simp [fixRefValue])
            | num n => exact absurd hf (by simp [fixRefValue])
            | arr xs => exact absurd hf (by simp [fixRefValue])
            | obj o => exact absurd hf (by simp [fixRefValue])
          rw [hstr, rewriteEntries_same name rest tbl rest' hr]
          simp
    · rw [if_neg hk] at h
      cases hv : rewrite_references name v tbl with
      | none => rw [hv] at h; exact absurd h (by simp)
      | some v' =>
        rw [hv] at h
        cases hr : rewriteEntries name rest tbl with
        | none => rw [hr] at h; exact absurd h (by simp)
        | some rest' =>
          rw [hr] at h
          cases h
          rw [sameExceptRefEntries]
          rw [if_neg hk]
          rw [rewrite_references_same name v tbl v' hv]
          rw [rewriteEntries_same name rest tbl rest' hr]
          simp

theorem rewriteElems_same : ∀ (name : String) (xs : List Json)
    (tbl : List (String × String)) (xs' : List Json),
    rewriteElems name xs tbl = some xs' → sameExceptRefElems xs xs' = true
  | name, [], tbl, xs', h => by
    rw [rewriteElems] at h
    cases h
    rfl
  | name, v :: rest, tbl, xs', h => by
    rw [rewriteElems] at h
    cases hv : rewrite_references name v tbl with
    | none => rw [hv] at h; exact absurd h (by simp)
    | some v' =>
      rw [hv] at h
      cases hr : rewriteElems name rest tbl with
      | none => rw [hr] at h; exact absurd h (by simp)
      | some rest' =>
        rw [hr] at h
        cases h
        rw [sameExceptRefElems]
        rw [rewrite_references_same name v tbl v' hv]
        rw [rewriteElems_same name rest tbl rest' hr]
        rfl

end

/-! ## Properties of the definition extractor -/

theorem lookup_cons_ne (a k : String) (b : Json) (es : List (String × Json))
    (h : a ≠ k) : List.lookup a ((k, b) :: es) = List.lookup a es := by
  rw [List.lookup_cons, beq_eq_false_iff_ne.mpr h]

theorem removeKey_fst (kvs : List (String × Json)) (key : String) :
    (removeKey kvs key).1 = List.lookup key kvs := by
  induction kvs with
  | nil => rfl
  | cons kv rest ih =>
    obtain ⟨k, v⟩ := kv
    by_cases hk : k = key
    · subst hk
      simp [removeKey]
    · rw [removeKey, if_neg (by simpa using hk),
        lookup_cons_ne key k v rest (Ne.symm hk)]
      exact ih

theorem removeKey_of_not_contains (kvs : List (String × Json)) (key : String)
    (h : containsKey kvs key = false) : removeKey kvs key = (none, kvs) := by
  induction kvs with
  | nil => rfl
  | cons kv rest ih =>
    obtain ⟨k, v⟩ := kv
    simp only [containsKey, List.any_cons, Bool.or_eq_false_iff] at h
    rw [removeKey, if_neg (by simp [h.1])]
    rw [ih (h.2 : _)]

theorem containsKey_removeKey_self (kvs : List (String × Json)) (key : String)
    (hnd : (kvs.map Prod.fst).Nodup) :
    containsKey (removeKey kvs key).2 key = false := by
  induction kvs with
  | nil => rfl
  | cons kv rest ih =>
    obtain ⟨k, v⟩ := kv
    simp only [List.map_cons, List.nodup_cons] at hnd
    by_cases hk : k = key
    · subst hk
      rw [removeKey, if_pos (by simp)]
      simp only [containsKey, List.any_eq_false]
      intro kv hkv he
      have hkeq : kv.1 = k := by simpa using he
      exact hnd.1 (hkeq ▸ List.mem_map_of_mem Prod.fst hkv)
    · rw [removeKey, if_neg (by simpa using hk)]
      simp only [containsKey, List.any_cons, Bool.or_eq_false_iff]
      refine ⟨by simpa using hk, ?_⟩
      simpa [containsKey] using ih hnd.2

theorem lookup_removeKey_other (kvs : List (String × Json)) (key k : String)
    (h : k ≠ key) :
    List.lookup k (removeKey kvs key).2 = List.lookup k kvs := by
  induction kvs with
  | nil => rfl
  | cons kv rest ih =>
    obtain ⟨k₀, v⟩ := kv
    by_cases hk : k₀ = key
    · rw [removeKey, if_pos (by simp [hk])]
      rw [lookup_cons_ne k k₀ v rest (fun he => h (he.trans hk))]
    · rw [removeKey, if_neg (by simpa using hk)]
      by_cases hkk : k = k₀
      · subst hkk
        show List.lookup k ((k, v) :: (removeKey rest key).2) = _
        rw [List.lookup_cons_self, List.lookup_cons_self]
      · show List.lookup k ((k₀, v) :: (removeKey rest key).2) = _
        rw [lookup_cons_ne k k₀ v _ hkk, lookup_cons_ne k k₀ v rest hkk]
        exact ih

theorem lookup_mapInsert_self (m : List (String × Json)) (key : String)
    (val : Json) : List.lookup key (mapInsert m key val) = some val := by
  induction m with
  | nil => rw [mapInsert, List.lookup_cons_self]
  | cons kv rest ih =>
    obtain ⟨k, v⟩ := kv
    by_cases hk : k = key
    · subst hk
      rw [mapInsert, if_pos (by simp), List.lookup_cons_self]
    · rw [mapInsert, if_neg (by simpa using hk),
        lookup_cons_ne key k v _ (Ne.symm hk)]
      exact ih

theorem lookup_mapInsert_other (m : List (String × Json)) (key : String)
    (val : Json) (k : String) (h : k ≠ key) :
    List.lookup k (mapInsert m key val) = List.lookup k m := by
  induction m with
  | nil => rw [mapInsert, lookup_cons_ne k key val [] h]
  | cons kv rest ih =>
    obtain ⟨k₀, v⟩ := kv
    by_cases hk : k₀ = key
    · subst hk
      rw [mapInsert, if_pos (by simp)]
      rw [lookup_cons_ne k k₀ val rest h, lookup_cons_ne k k₀ v rest h]
    · rw [mapInsert, if_neg (by simpa using hk)]
      by_cases hkk : k = k₀
      · subst hkk
        rw [List.lookup_cons_self, List.lookup_cons_self]
      · rw [lookup_cons_ne k k₀ v _ hkk, lookup_cons_ne k k₀ v rest hkk]
        exact ih

theorem lookup_mapExtend_of_not_mem (m entries : List (String × Json))
    (k : String) (h : ∀ e ∈ entries, e.1 ≠ k) :
    List.lookup k (mapExtend m entries) = List.lookup k m := by
  induction entries generalizing m with
  | nil => rfl
  | cons e es ih =>
    obtain ⟨k₀, v₀⟩ := e
    show List.lookup k (mapExtend (mapInsert m k₀ v₀) es) = _
    rw [ih (mapInsert m k₀ v₀) (fun e he => h e (List.mem_cons_of_mem _ he))]
    exact lookup_mapInsert_other m k₀ v₀ k
      (fun he => h (k₀, v₀) (List.mem_cons_self _ _) (by simpa using he.symm))

theorem lookup_mapExtend_of_mem (m entries : List (String × Json))
    (k : String) (v : Json) (hmem : (k, v) ∈ entries)
    (hnd : (entries.map Prod.fst).Nodup) :
    List.lookup k (mapExtend m entries) = some v := by
  induction entries generalizing m with
  | nil => cases hmem
  | cons e es ih =>
    obtain ⟨k₀, v₀⟩ := e
    simp only [List.map_cons, List.nodup_cons] at hnd
    rcases List.mem_cons.mp hmem with he | he
    · cases he
      show List.lookup k (mapExtend (mapInsert m k v) es) = some v
      rw [lookup_mapExtend_of_not_mem (mapInsert m k v) es k
        (fun e hme heq => hnd.1 (heq ▸ List.mem_map_of_mem Prod.fst hme))]
      exact lookup_mapInsert_self m k v
    · show List.lookup k (mapExtend (mapInsert m k₀ v₀) es) = some v
      exact ih (mapInsert m k₀ v₀) he hnd.2

theorem lookup_isSome_of_containsKey (kvs : List (String × Json))
    (key : String) (h : containsKey kvs key = true) :
    (List.lookup key kvs).isSome = true := by
  rw [List.lookup_isSome_iff]
  simp only [containsKey, List.any_eq_true] at h
  obtain ⟨q, hq, he⟩ := h
  exact ⟨q, hq, by simpa using (beq_iff_eq.mp he).symm⟩

theorem extract_obj_defs (acc kvs defs r₂)
    (h : removeKey kvs "definitions" = (some (.obj defs), r₂)) :
    extract_definitions acc (.obj kvs) = (mapExtend acc defs, .obj r₂) := by
  rw [extract_definitions, h]

theorem extract_obj_none (acc kvs r₂)
    (h : removeKey kvs "definitions" = (none, r₂)) :
    extract_definitions acc (.obj kvs) = (acc, .obj r₂) := by
  rw [extract_definitions, h]

theorem extract_obj_nonobj (acc kvs val r₂)
    (h : removeKey kvs "definitions" = (some val, r₂))
    (hval : ∀ defs, val ≠ .obj defs) :
    extract_definitions acc (.obj kvs) = (acc, .obj r₂) := by
  rw [extract_definitions, h]
  cases val with
  | obj o => exact absurd rfl (hval o)
  | null => rfl
  | bool b => rfl
  | num n => rfl
  | str s => rfl
  | arr xs => rfl

/-! ## The name deriver -/

theorem string_join_append_single (l : List String) (s : String) :
    String.join (l ++ [s]) = String.join l ++ s := by
  rw [String.join, String.join, List.foldl_append]
  rfl

/-- The name-derivation rule in the spec's words: split the base name on
the separator, capitalize the first letter of each segment, concatenate
the segments, and append the word `Schema`. -/
def nameDeriverSpec (b : String) : String :=
  String.join ((splitOnChar '-' b.toList).map
    (fun g => uppercase_first (String.mk g))) ++ "Schema"


/-! ## Claims -/

/-- C1: running the per-file pipeline (strip, rewrite with the full name
table, extract) over `m3-a.schema.json` and `m3-b.schema.json` and filing
the processed trees yields a definitions map with exactly the keys `X`,
`ASchema` and `BSchema`, bound to the expected schemas. -/
theorem mergeDriver_two_file_example :
    ∃ m, mergeDriver
      [("m3-a.schema.json", .obj [("type", .str "object"),
         ("definitions", .obj [("X", .obj [("type", .str "string")])])]),
       ("m3-b.schema.json", .obj [("$ref", .str "m3-a.schema.json")])] =
        some m ∧
      m.map Prod.fst = ["X", "ASchema", "BSchema"] ∧
      List.lookup "X" m = some (.obj [("type", .str "string")]) ∧
      List.lookup "ASchema" m = some (.obj [("type", .str "object")]) ∧
      List.lookup "BSchema" m =
        some (.obj [("$ref", .str "#/definitions/ASchema")]) :=
  ⟨[("X", .obj [("type", .str "string")]),
    ("ASchema", .obj [("type", .str "object")]),
    ("BSchema", .obj [("$ref", .str "#/definitions/ASchema")])],
   rfl, rfl, rfl, rfl, rfl⟩

/-- C2: a `$ref` string with no `#` is rewritten to
`#/definitions/<looked-up-name>` when it is a key of the name table, and
aborts the run (modelled `none`, no output) when it is not. -/
theorem fix_reference_bare_filename (reference name : String)
    (tbl : List (String × String))
    (hno : ∀ c ∈ reference.toList, c ≠ '#') :
    fix_reference reference name tbl =
      (List.lookup reference tbl).map (fun n => "#/definitions/" ++ n) ∧
    (List.lookup reference tbl = none →
      rewrite_references name (.obj [("$ref", .str reference)]) tbl = none) := by
  refine ⟨fix_reference_bare_rule reference name tbl hno, fun hnone => ?_⟩
  have hfix : fix_reference reference name tbl = none := by
    rw [fix_reference_bare_rule reference name tbl hno, hnone]
    rfl
  have hfv : fixRefValue name (.str reference) tbl = none := by
    rw [fixRefValue, hfix]
    rfl
  rw [rewrite_references, rewriteEntries, if_pos (by rfl), hfv]
  rfl

/-- C2 witness: a known bare filename is rewritten into the definitions
map; an unknown one makes the whole rewrite abort. -/
theorem fix_reference_bare_filename_witness :
    fix_reference "m3-room.schema.json" "X"
        [("m3-room.schema.json", "RoomSchema")] =
      some "#/definitions/RoomSchema" ∧
    rewrite_references "X" (.obj [("$ref", .str "nope.schema.json")]) [] =
      none := by
  constructor
  · rw [(fix_reference_bare_filename "m3-room.schema.json" "X"
      [("m3-room.schema.json", "RoomSchema")] (by decide)).1]
    rfl
  · exact (fix_reference_bare_filename "nope.schema.json" "X" []
      (by decide)).2 rfl

/-- C3 counterexample: the claim fails at the root.  Stripping
`{"if": null, "then": null}` filters only container children, so the root
of the result still carries both an `if` and a `then` key. -/
theorem strip_if_then_else_root_counterexample :
    noIfThenAnywhere
      (strip_if_then_else (.obj [("if", .null), ("then", .null)])) = false :=
  rfl

/-- C3 amended: in `ConditionalStripper(T)` no node strictly below the
root — no object member value and no array element, at any depth — has
both an `if` key and a `then` key; the root itself is never removed and
may keep both keys. -/
theorem strip_if_then_else_no_conditional_below (t : Json) :
    noIfThenBelow (strip_if_then_else t) = true :=
  noIfThenBelow_strip t

/-- C4: a `$ref` starting with `#/properties/` processed under file name
`name` is rewritten to `#/definitions/<name>/` followed by the original
pointer with its leading `#/` removed, whatever else the pointer holds
(so this rule wins over the cross-file rule). -/
theorem fix_reference_local_properties (rest name : String)
    (tbl : List (String × String)) :
    fix_reference ("#/properties/" ++ rest) name tbl =
      some ("#/definitions/" ++ name ++ "/" ++ ("properties/" ++ rest)) :=
  fix_reference_properties_rule rest name tbl

/-- C5: a `$ref` of shape `<file>#<fragment>`, with a nonempty file part
containing no `#` (hence the first `#` is at a positive index and the
string does not start with `#/properties/`), is rewritten to the suffix
starting at the `#`: the file part is stripped, the fragment kept. -/
theorem fix_reference_cross_file (file frag name : String)
    (tbl : List (String × String)) (hne : file ≠ "")
    (hno : ∀ c ∈ file.toList, c ≠ '#') :
    fix_reference (file ++ "#" ++ frag) name tbl = some ("#" ++ frag) :=
  fix_reference_cross_rule file frag name tbl hne hno

/-- C5 witness: `other.schema.json#/definitions/Foo` becomes
`#/definitions/Foo`. -/
theorem fix_reference_cross_file_witness :
    fix_reference ("other.schema.json" ++ "#" ++ "/definitions/Foo")
      "N" [] = some ("#" ++ "/definitions/Foo") :=
  fix_reference_cross_file "other.schema.json" "/definitions/Foo" "N" []
    (by decide) (by decide)

/-- C6: the derived name is the concatenation of the segments of the base
split on `-`, each with its first character uppercased, followed by
`Schema`; `room-state` gives `RoomStateSchema`, `foo` gives `FooSchema`,
`foo--bar` gives `FooBarSchema`, and an empty segment contributes the
empty string. -/
theorem schema_name_to_type_name_spec :
    (∀ b : String, schema_name_to_type_name b = nameDeriverSpec b) ∧
    schema_name_to_type_name "room-state" = "RoomStateSchema" ∧
    schema_name_to_type_name "foo" = "FooSchema" ∧
    schema_name_to_type_name "foo--bar" = "FooBarSchema" ∧
    uppercase_first "" = "" := by
  refine ⟨fun b => ?_, by decide, by decide, by decide, rfl⟩
  rw [schema_name_to_type_name, nameDeriverSpec, string_join_append_single]

/-- C7: on an object with a `definitions` key the extractor removes that
key, keeps every other key's value, and (when the definitions value is an
object) lands each of its entries in the accumulator unchanged; on an
object without the key, or a non-object, both tree and accumulator are
unchanged. -/
theorem extract_definitions_spec (acc kvs : List (String × Json))
    (hnd : (kvs.map Prod.fst).Nodup) :
    (containsKey kvs "definitions" = true →
      ∃ kvs', (extract_definitions acc (.obj kvs)).2 = .obj kvs' ∧
        containsKey kvs' "definitions" = false ∧
        (∀ k, k ≠ "definitions" →
          List.lookup k kvs' = List.lookup k kvs) ∧
        (∀ defs, List.lookup "definitions" kvs = some (.obj defs) →
          (defs.map Prod.fst).Nodup → ∀ k v, (k, v) ∈ defs →
            List.lookup k (extract_definitions acc (.obj kvs)).1 = some v)) ∧
    (containsKey kvs "definitions" = false →
      extract_definitions acc (.obj kvs) = (acc, .obj kvs)) ∧
    (∀ j : Json, (∀ kvs₀, j ≠ .obj kvs₀) →
      extract_definitions acc j = (acc, j)) := by
  refine ⟨fun hc => ?_, fun hc => ?_, fun j hj => ?_⟩
  · have hsome := lookup_isSome_of_containsKey kvs "definitions" hc
    cases hrm : removeKey kvs "definitions" with
    | mk r₁ r₂ =>
      have hr1 : List.lookup "definitions" kvs = r₁ := by
        rw [← removeKey_fst kvs "definitions", hrm]
      have hr2 : (removeKey kvs "definitions").2 = r₂ := by rw [hrm]
      have hck : containsKey r₂ "definitions" = false :=
        hr2 ▸ containsKey_removeKey_self kvs "definitions" hnd
      have hlks : ∀ k, k ≠ "definitions" →
          List.lookup k r₂ = List.lookup k kvs :=
        fun k hk => hr2 ▸ lookup_removeKey_other kvs "definitions" k hk
      cases r₁ with
      | none => rw [hr1] at hsome; exact absurd hsome (by simp)
      | some val =>
        by_cases hobj : ∃ defs, val = Json.obj defs
        · obtain ⟨defs, rfl⟩ := hobj
          have hx := extract_obj_defs acc kvs defs r₂ hrm
          refine ⟨r₂, by rw [hx], hck, hlks, ?_⟩
          intro defs₀ hlk hnd₀ k v hmem
          have hdefs : defs = defs₀ :=
            Json.obj.inj (Option.some.inj (hr1.symm.trans hlk))
          rw [hx, hdefs]
          exact lookup_mapExtend_of_mem acc defs₀ k v hmem hnd₀
        · push_neg at hobj
          have hx := extract_obj_nonobj acc kvs val r₂ hrm hobj
          refine ⟨r₂, by rw [hx], hck, hlks, ?_⟩
          intro defs₀ hlk
          exact absurd (Option.some.inj (hr1.symm.trans hlk)) (hobj defs₀)
  · rw [extract_obj_none acc kvs kvs
      (removeKey_of_not_contains kvs "definitions" hc)]
  · cases j with
    | obj o => exact absurd rfl (hj o)
    | null => rfl
    | bool b => rfl
    | num n => rfl
    | str s => rfl
    | arr xs => rfl

/-- C7 witness: extracting from
`{"definitions": {"X": null}, "type": "object"}` puts `X ↦ null` into the
accumulator. -/
theorem extract_definitions_spec_witness :
    List.lookup "X" (extract_definitions []
      (Json.obj [("definitions", Json.obj [("X", Json.null)]),
        ("type", Json.str "object")])).1 = some Json.null := by
  obtain ⟨h1, -, -⟩ := extract_definitions_spec []
    [("definitions", Json.obj [("X", Json.null)]),
     ("type", Json.str "object")] (by simp)
  obtain ⟨kvs', -, -, -, h4⟩ := h1 (by rfl)
  exact h4 [("X", Json.null)] rfl (by simp) "X" Json.null (by simp)

/-- C8: the conditional stripper is idempotent. -/
theorem strip_if_then_else_idempotent (t : Json) :
    strip_if_then_else (strip_if_then_else t) = strip_if_then_else t :=
  strip_strip t

/-- C9: a successful rewrite changes only string values under `$ref` keys
(shape, keys and all other values survive unchanged), and a `$ref` string
whose only `#` is its first character and that does not start with
`#/properties/` is left as it is. -/
theorem rewrite_references_frame :
    (∀ (name : String) (t : Json) (tbl : List (String × String)) (t' : Json),
      rewrite_references name t tbl = some t' → sameExceptRef t t' = true) ∧
    (∀ (reference name : String) (tbl : List (String × String))
        (tail : List Char),
      reference.toList = '#' :: tail → (∀ c ∈ tail, c ≠ '#') →
      ("#/properties/").toList.isPrefixOf reference.toList = false →
      fix_reference reference name tbl = some reference) :=
  ⟨rewrite_references_same, fun reference name tbl tail hh _ hpre =>
    fix_reference_unchanged_rule reference name tbl tail hh hpre⟩

/-- C9 witness: rewriting a one-member `$ref` object keeps its shape, and
`#foo` is left unchanged by `fix_reference`. -/
theorem rewrite_references_frame_witness :
    sameExceptRef (.obj [("$ref", .str "m3-a.schema.json")])
      (.obj [("$ref", .str "#/definitions/ASchema")]) = true ∧
    fix_reference "#foo" "N" [] = some "#foo" :=
  ⟨rewrite_references_frame.1 "ASchema"
      (.obj [("$ref", .str "m3-a.schema.json")])
      [("m3-a.schema.json", "ASchema")]
      (.obj [("$ref", .str "#/definitions/ASchema")]) rfl,
   rewrite_references_frame.2 "#foo" "N" [] "foo".toList rfl (by decide) rfl⟩

/-- C10: when the `definitions` value is not an object, the extractor
still removes the key (other keys keep their values) but discards the
value, leaving the accumulator unchanged. -/
theorem extract_definitions_nonobject (acc kvs : List (String × Json))
    (val : Json) (hnd : (kvs.map Prod.fst).Nodup)
    (hlk : List.lookup "definitions" kvs = some val)
    (hval : ∀ defs, val ≠ Json.obj defs) :
    (extract_definitions acc (.obj kvs)).1 = acc ∧
    ∃ kvs', (extract_definitions acc (.obj kvs)).2 = .obj kvs' ∧
      containsKey kvs' "definitions" = false ∧
      ∀ k, k ≠ "definitions" → List.lookup k kvs' = List.lookup k kvs := by
  cases hrm : removeKey kvs "definitions" with
  | mk r₁ r₂ =>
    have hr1 : List.lookup "definitions" kvs = r₁ := by
      rw [← removeKey_fst kvs "definitions", hrm]
    have hr2 : (removeKey kvs "definitions").2 = r₂ := by rw [hrm]
    have hv : r₁ = some val := hr1.symm.trans hlk
    subst hv
    have hx := extract_obj_nonobj acc kvs val r₂ hrm hval
    rw [hx]
    exact ⟨rfl, r₂, rfl,
      hr2 ▸ containsKey_removeKey_self kvs "definitions" hnd,
      fun k hk => hr2 ▸ lookup_removeKey_other kvs "definitions" k hk⟩

/-- C10 witness: `{"definitions": []}` loses its `definitions` key while
the accumulator stays empty. -/
theorem extract_definitions_nonobject_witness :
    (extract_definitions [] (Json.obj [("definitions", Json.arr [])])).1 =
      [] ∧
    (extract_definitions [] (Json.obj [("definitions", Json.arr [])])).2 =
      Json.obj [] := by
  have h := extract_definitions_nonobject [] [("definitions", Json.arr [])]
    (Json.arr []) (by simp) rfl (fun defs hdef => by cases hdef)
  exact ⟨h.1, rfl⟩
